import Mathlib

/-!
Shallow embedding of the go-guardian cache store package.

The package contains two near-duplicate internal engines plus a public
LRU wrapper:

  * `core`  (store/cache.go variant, methods `store/load/delete/removeElement/keys/withTTL`)
    — embedded here as `Core`;
  * `cache` (second variant, methods `store/update/load/delete/removeElement/evict/keys/len/clear/withTTL`)
    — embedded here as `CacheS`;
  * `LRU`   (store/lru.go) — the public, mutex-guarded wrapper over `core`.

Modelling choices:

  * Go `*list.Element` pointers are modelled by natural-number ids drawn
    from a `nextId` supply.  A heap (`List (Nat × Record)`) holds every
    allocated record by id and is never shrunk, mirroring the fact that a
    removed `list.Element` still carries its `Value`; the recency list
    (`ll` / `list`) is the sequence of ids currently linked, front first;
    the key map (`cache` / `items`) is an association list key → id.
  * `time.Now().UTC()` is threaded explicitly as a `now : Nat` parameter;
    `time.Duration` and `time.Time` both become `Nat` (0 = Go zero value).
  * A `*time.Timer` is modelled by `Option Nat`: `some t` is an active
    trigger scheduled to fire at absolute time `t`; `Stop` makes it `none`.
  * The optional `onEvicted` callback is modelled by a `Bool` flag
    (configured or not) plus an explicit output list of the `(key, value)`
    invocations an operation performs, in order.
  * The mutex only serializes operations; a sequential embedding runs the
    operations in program order, so the lock itself has no residue here.
  * `l.c == nil` guards in lru.go can never trigger for caches built by
    `New` (which always allocates the core), so they are not modelled.
-/

/-- Payload type stored in the cache (Go: `interface{}`); opaque to the engine. -/
abbrev Val := Int

/-- The distinguished error returned by `load` on TTL expiry (Go: `ErrCachedExp`). -/
inductive CacheErr where
  | cachedExp
deriving DecidableEq

/-- Go `record`: one cache entry. `exp` is the absolute expiry instant,
`timer` the active background trigger (`some` fire-time) if any. -/
structure Record where
  exp   : Nat
  timer : Option Nat
  key   : String
  value : Val
deriving DecidableEq

instance : Inhabited Record := ⟨⟨0, none, "", 0⟩⟩

/-- Go map read `m[k]`: the id bound to `k`, if any. -/
def mapLookup (m : List (String × Nat)) (k : String) : Option Nat :=
  (m.find? (fun p => p.1 = k)).map Prod.snd

/-- Go map write `m[k] = id` (replaces any existing binding). -/
def mapInsert (m : List (String × Nat)) (k : String) (id : Nat) : List (String × Nat) :=
  (k, id) :: m.filter (fun p => p.1 ≠ k)

/-- Go `delete(m, k)`. -/
def mapErase (m : List (String × Nat)) (k : String) : List (String × Nat) :=
  m.filter (fun p => p.1 ≠ k)

/-- Dereference an element pointer: the record the element with this id carries. -/
def heapGet (h : List (Nat × Record)) (id : Nat) : Record :=
  ((h.find? (fun p => p.1 = id)).map Prod.snd).getD default

/-- Mutate the record carried by the element with this id, in place. -/
def heapSet (h : List (Nat × Record)) (id : Nat) (r : Record) : List (Nat × Record) :=
  h.map (fun p => if p.1 = id then (id, r) else p)

/-- Go `list.MoveToFront(e)`: re-splice `e` to the front; no-op when `e`
is not linked into this list (Go checks `e.list != l`). -/
def llMoveToFront (ll : List Nat) (id : Nat) : List Nat :=
  if id ∈ ll then id :: ll.filter (fun x => x ≠ id) else ll

/-- Go `core`: the first engine variant. -/
structure Core where
  nextId    : Nat
  heap      : List (Nat × Record)
  ll        : List Nat
  cache     : List (String × Nat)
  ttl       : Nat
  onEvicted : Bool
deriving DecidableEq

/-- Go `core.withTTL(r, ttl)`: stop any existing timer, then, when `ttl > 0`,
arm a fresh background trigger and stamp the expiry. (The trigger's closure
re-runs `load` on the key; only its schedule is modelled.) -/
def Core.withTTL (r : Record) (ttl now : Nat) : Record :=
  let r := { r with timer := none }
  if ttl > 0 then { r with timer := some (now + ttl), exp := now + ttl } else r

/-- Go `core.store`: overwrite in place when the key is present, else push a
fresh record at the back and index it; returns the element. -/
def Core.store (c : Core) (key : String) (v : Val) (now : Nat) : Core × Nat :=
  match mapLookup c.cache key with
  | some id =>
    let r := heapGet c.heap id
    ({ c with heap := heapSet c.heap id (Core.withTTL { r with value := v } c.ttl now) }, id)
  | none =>
    let r := Core.withTTL { exp := 0, timer := none, key := key, value := v } c.ttl now
    let id := c.nextId
    ({ c with nextId := id + 1
            , heap := (id, r) :: c.heap
            , ll := c.ll ++ [id]
            , cache := mapInsert c.cache key id }, id)

/-- Go `core.removeElement`: unlink the element, delete its key, and fire the
eviction callback when one is configured. -/
def Core.removeElement (c : Core) (id : Nat) : Core × List (String × Val) :=
  let kv := heapGet c.heap id
  ({ c with ll := c.ll.filter (fun x => x ≠ id)
          , cache := mapErase c.cache kv.key },
   if c.onEvicted then [(kv.key, kv.value)] else [])

/-- Go `core.load`: find the element; when a TTL is configured and `now` is
strictly after the stamped expiry (`time.Now().UTC().After(r.Exp)`), remove
the element and report `ErrCachedExp`; otherwise return it. -/
def Core.load (c : Core) (key : String) (now : Nat) :
    Option Nat × Bool × Option CacheErr × Core × List (String × Val) :=
  match mapLookup c.cache key with
  | some id =>
    let r := heapGet c.heap id
    if c.ttl > 0 then
      if now > r.exp then
        let res := c.removeElement id
        (some id, true, some CacheErr.cachedExp, res.1, res.2)
      else (some id, true, none, c, [])
    else (some id, true, none, c, [])
  | none => (none, false, none, c, [])

/-- Go `core.delete`: remove the element bound to the key, if any. -/
def Core.delete (c : Core) (key : String) : Core × List (String × Val) :=
  match mapLookup c.cache key with
  | some id => c.removeElement id
  | none => (c, [])

/-- Go `core.keys`: the keys of the map (Go iteration order is unspecified;
the model uses the association-list order). -/
def Core.keys (c : Core) : List String :=
  c.cache.map Prod.fst

/-- Go `LRU` (lru.go): the public wrapper. `OnEvicted` is modelled by whether
a callback is configured. -/
structure LRU where
  MaxEntries : Nat
  OnEvicted  : Bool
  TTL        : Nat
  c          : Core
deriving DecidableEq

/-- Go `New(maxEntries)`. -/
def LRU.New (maxEntries : Nat) : LRU :=
  { MaxEntries := maxEntries, OnEvicted := false, TTL := 0
  , c := { nextId := 0, heap := [], ll := [], cache := [], ttl := 0, onEvicted := false } }

/-- Go `LRU.set`: copy the wrapper's callback and TTL into the core. -/
def LRU.set (l : LRU) : LRU :=
  { l with c := { l.c with onEvicted := l.OnEvicted, ttl := l.TTL } }

/-- Go `LRU.removeOldest` (unexported): remove the back element, if any. -/
def LRU.removeOldest (l : LRU) : LRU × List (String × Val) :=
  match l.c.ll.getLast? with
  | some id =>
    let res := l.c.removeElement id
    ({ l with c := res.1 }, res.2)
  | none => (l, [])

/-- Go `LRU.RemoveOldest` (public): lock, then `removeOldest`. -/
def LRU.RemoveOldest (l : LRU) : LRU × List (String × Val) :=
  l.removeOldest

/-- Go `LRU.Store`: `set`, engine `store`, promote to front, then evict the
oldest entry when a capacity is configured and exceeded. Returns `nil` error
(not modelled) and the callback invocations performed. -/
def LRU.Store (l : LRU) (key : String) (v : Val) (now : Nat) : LRU × List (String × Val) :=
  let l := l.set
  let se := l.c.store key v now
  let l := { l with c := { se.1 with ll := llMoveToFront se.1.ll se.2 } }
  if l.MaxEntries ≠ 0 ∧ l.c.ll.length > l.MaxEntries then l.removeOldest
  else (l, [])

/-- Go `LRU.Load`: engine `load`; on success (`ok && err == nil`) promote the
element to the front and return its value; otherwise return `nil` with the
engine's `ok`/`err` unchanged. -/
def LRU.Load (l : LRU) (key : String) (now : Nat) :
    Option Val × Bool × Option CacheErr × LRU × List (String × Val) :=
  let res := l.c.load key now
  let e := res.1
  let ok := res.2.1
  let err := res.2.2.1
  let c := res.2.2.2.1
  let ev := res.2.2.2.2
  if ok = true ∧ err = none then
    match e with
    | some id =>
      (some (heapGet c.heap id).value, ok, err,
       { l with c := { c with ll := llMoveToFront c.ll id } }, ev)
    | none => (none, ok, err, { l with c := c }, ev)
  else (none, ok, err, { l with c := c }, ev)

/-- Go `LRU.Delete`: engine `delete`; always returns `nil` error. -/
def LRU.Delete (l : LRU) (key : String) : LRU × List (String × Val) :=
  let res := l.c.delete key
  ({ l with c := res.1 }, res.2)

/-- Go `LRU.Len`. -/
def LRU.Len (l : LRU) : Nat :=
  l.c.ll.length

/-- Go `LRU.Clear`: when a callback is configured, fire it for every entry of
the key map — the entries are NOT unlinked or deleted (faithful to lru.go). -/
def LRU.Clear (l : LRU) : LRU × List (String × Val) :=
  if l.OnEvicted then
    (l, l.c.cache.map (fun p => ((heapGet l.c.heap p.2).key, (heapGet l.c.heap p.2).value)))
  else (l, [])

/-- Go `LRU.Keys`. -/
def LRU.Keys (l : LRU) : List String :=
  l.c.keys

/-- Go `cache`: the second engine variant. -/
structure CacheS where
  nextId    : Nat
  heap      : List (Nat × Record)
  list      : List Nat
  items     : List (String × Nat)
  ttl       : Nat
  onEvicted : Bool
deriving DecidableEq

/-- Go `cache.withTTL(r, ttl)`: when `ttl > 0`, arm a background trigger and
stamp the expiry (this variant does not stop a previous timer). -/
def CacheS.withTTL (r : Record) (ttl now : Nat) : Record :=
  if ttl > 0 then { r with timer := some (now + ttl), exp := now + ttl } else r

/-- Go `cache.removeElement`: unlink the element, stop its timer, delete its
key. Fires no callback. -/
def CacheS.removeElement (c : CacheS) (id : Nat) : CacheS :=
  let r := heapGet c.heap id
  { c with list := c.list.filter (fun x => x ≠ id)
         , heap := heapSet c.heap id { r with timer := none }
         , items := mapErase c.items r.key }

/-- Go `cache.evict`: `removeElement`, then fire the eviction callback when
one is configured. -/
def CacheS.evict (c : CacheS) (id : Nat) : CacheS × List (String × Val) :=
  let c2 := c.removeElement id
  let r := heapGet c2.heap id
  (c2, if c2.onEvicted then [(r.key, r.value)] else [])

/-- Go `cache.store`: remove any existing element for the key (no callback),
then push a fresh record at the back and index it. -/
def CacheS.store (c : CacheS) (key : String) (v : Val) (now : Nat) : CacheS × Nat :=
  let c := match mapLookup c.items key with
           | some id => c.removeElement id
           | none => c
  let r := CacheS.withTTL { exp := 0, timer := none, key := key, value := v } c.ttl now
  let id := c.nextId
  ({ c with nextId := id + 1
          , heap := (id, r) :: c.heap
          , list := c.list ++ [id]
          , items := mapInsert c.items key id }, id)

/-- Go `cache.update`: replace the value in place when the key is present;
otherwise do nothing. Touches neither expiry, timer, order nor index. -/
def CacheS.update (c : CacheS) (key : String) (v : Val) : CacheS :=
  match mapLookup c.items key with
  | some id =>
    let r := heapGet c.heap id
    { c with heap := heapSet c.heap id { r with value := v } }
  | none => c

/-- Go `cache.load`: like `core.load` but expiry goes through `evict`. -/
def CacheS.load (c : CacheS) (key : String) (now : Nat) :
    Option Nat × Bool × Option CacheErr × CacheS × List (String × Val) :=
  match mapLookup c.items key with
  | some id =>
    let r := heapGet c.heap id
    if c.ttl > 0 then
      if now > r.exp then
        let res := c.evict id
        (some id, true, some CacheErr.cachedExp, res.1, res.2)
      else (some id, true, none, c, [])
    else (some id, true, none, c, [])
  | none => (none, false, none, c, [])

/-- Go `cache.delete`: `evict` the element bound to the key, if any. -/
def CacheS.delete (c : CacheS) (key : String) : CacheS × List (String × Val) :=
  match mapLookup c.items key with
  | some id => c.evict id
  | none => (c, [])

/-- Go `cache.keys`. -/
def CacheS.keys (c : CacheS) : List String :=
  c.items.map Prod.fst

/-- Go `cache.len`. -/
def CacheS.len (c : CacheS) : Nat :=
  c.list.length

/-- Go `cache.clear`: a complete no-op when no callback is configured;
otherwise `evict` every indexed entry (map iteration order unspecified in Go;
the model walks the association list). -/
def CacheS.clear (c : CacheS) : CacheS × List (String × Val) :=
  if c.onEvicted = false then (c, [])
  else
    c.items.foldl
      (fun acc p =>
        let res := acc.1.evict p.2
        (res.1, acc.2 ++ res.2))
      (c, [])

/-- Go `newCache`. -/
def newCache : CacheS :=
  { nextId := 0, heap := [], list := [], items := [], ttl := 0, onEvicted := false }

/-- Run a sequence of `Store` operations, accumulating the callback
invocations they perform. -/
def LRU.runStores (l : LRU) : List (String × Val × Nat) → LRU × List (String × Val)
  | [] => (l, [])
  | (k, v, t) :: rest =>
    let res := l.Store k v t
    let res2 := res.1.runStores rest
    (res2.1, res.2 ++ res2.2)

/-- Structural well-formedness of a `core`: element ids are unique and below
the allocation bound, linked ids are allocated, map keys are unique, the map
and the recency list are mutually consistent (every binding points at a
linked element carrying that key; every linked element's key is bound back
to it). -/
def Core.WF (c : Core) : Prop :=
  (c.heap.map Prod.fst).Nodup ∧
  (∀ p ∈ c.heap, p.1 < c.nextId) ∧
  c.ll.Nodup ∧
  (∀ id ∈ c.ll, id ∈ c.heap.map Prod.fst) ∧
  (c.cache.map Prod.fst).Nodup ∧
  (∀ p ∈ c.cache, p.2 ∈ c.ll ∧ (heapGet c.heap p.2).key = p.1) ∧
  (∀ id ∈ c.ll, ((heapGet c.heap id).key, id) ∈ c.cache)

/-- Well-formedness of the wrapper is that of its core. -/
def LRU.WF (l : LRU) : Prop :=
  l.c.WF

/-- Structural well-formedness of the `cache` variant (same shape). -/
def CacheS.WF (c : CacheS) : Prop :=
  (c.heap.map Prod.fst).Nodup ∧
  (∀ p ∈ c.heap, p.1 < c.nextId) ∧
  c.list.Nodup ∧
  (∀ id ∈ c.list, id ∈ c.heap.map Prod.fst) ∧
  (∀ p ∈ c.items, p.2 ∈ c.list ∧ (heapGet c.heap p.2).key = p.1) ∧
  (∀ id ∈ c.list, ((heapGet c.heap id).key, id) ∈ c.items) ∧
  (c.items.map Prod.fst).Nodup

instance (c : Core) : Decidable c.WF := by
  unfold Core.WF
  exact inferInstance

instance (l : LRU) : Decidable l.WF := by
  unfold LRU.WF
  exact inferInstance

instance (c : CacheS) : Decidable c.WF := by
  unfold CacheS.WF
  exact inferInstance

/-- The `(key, value)` pairs currently linked in the recency list, front
(most recently used) first. -/
def LRU.entries (l : LRU) : List (String × Val) :=
  l.c.ll.map (fun id => ((heapGet l.c.heap id).key, (heapGet l.c.heap id).value))

/-- The cache faithfully represents the chronological content `C` (oldest
entry first): it is well formed, has capacity `N` and a configured callback,
its recency order lists exactly the entries of `C` newest-first, and it is
within capacity. -/
def LRU.Reps (l : LRU) (N : Nat) (C : List (String × Val)) : Prop :=
  l.WF ∧ l.MaxEntries = N ∧ l.OnEvicted = true ∧
  l.entries = C.reverse ∧ C.length ≤ N

/-! ### Association-list and heap lemmas -/

theorem mapLookup_cons (p : String × Nat) (m : List (String × Nat)) (k : String) :
    mapLookup (p :: m) k = if p.1 = k then some p.2 else mapLookup m k := by
  by_cases h : p.1 = k <;> simp [mapLookup, List.find?_cons, h]

theorem mapLookup_eq_none_iff (m : List (String × Nat)) (k : String) :
    mapLookup m k = none ↔ ∀ p ∈ m, p.1 ≠ k := by
  induction m with
  | nil => simp [mapLookup]
  | cons p m ih =>
    rw [mapLookup_cons]
    by_cases h : p.1 = k <;> simp [h, ih]

theorem mapLookup_mem {m : List (String × Nat)} {k : String} {id : Nat}
    (h : mapLookup m k = some id) : (k, id) ∈ m := by
  induction m with
  | nil => simp [mapLookup] at h
  | cons p m ih =>
    rw [mapLookup_cons] at h
    by_cases hp : p.1 = k
    · simp [hp] at h
      have hkp : (k, id) = p := by
        rw [← hp, ← h]
      rw [hkp]
      exact List.mem_cons_self p m
    · simp [hp] at h
      exact List.mem_cons_of_mem p (ih h)

theorem assoc_functional {m : List (String × Nat)} {k : String} {a b : Nat}
    (hn : (m.map Prod.fst).Nodup) (h1 : (k, a) ∈ m) (h2 : (k, b) ∈ m) : a = b := by
  induction m with
  | nil => simp at h1
  | cons p m ih =>
    simp only [List.map_cons, List.nodup_cons] at hn
    rcases List.mem_cons.mp h1 with h1 | h1 <;> rcases List.mem_cons.mp h2 with h2 | h2
    · exact congrArg Prod.snd (h1.trans h2.symm)
    · exfalso
      apply hn.1
      have hpk : p.1 = k := by rw [← h1]
      rw [hpk]
      exact List.mem_map.mpr ⟨(k, b), h2, rfl⟩
    · exfalso
      apply hn.1
      have hpk : p.1 = k := by rw [← h2]
      rw [hpk]
      exact List.mem_map.mpr ⟨(k, a), h1, rfl⟩
    · exact ih hn.2 h1 h2

theorem mapLookup_of_mem {m : List (String × Nat)} {k : String} {id : Nat}
    (hn : (m.map Prod.fst).Nodup) (hm : (k, id) ∈ m) : mapLookup m k = some id := by
  induction m with
  | nil => simp at hm
  | cons p m ih =>
    simp only [List.map_cons, List.nodup_cons] at hn
    rw [mapLookup_cons]
    rcases List.mem_cons.mp hm with h | h
    · simp [← h]
    · have hne : p.1 ≠ k := by
        intro hk
        apply hn.1
        rw [hk]
        exact List.mem_map_of_mem Prod.fst h
      simp [hne, ih hn.2 h]

theorem mem_mapErase {m : List (String × Nat)} {k : String} {p : String × Nat} :
    p ∈ mapErase m k ↔ p ∈ m ∧ p.1 ≠ k := by
  simp [mapErase, List.mem_filter]

theorem mapErase_keys_nodup {m : List (String × Nat)} {k : String}
    (hn : (m.map Prod.fst).Nodup) : ((mapErase m k).map Prod.fst).Nodup := by
  exact List.Nodup.sublist (List.Sublist.map Prod.fst (List.filter_sublist m)) hn

theorem mapLookup_mapErase_self (m : List (String × Nat)) (k : String) :
    mapLookup (mapErase m k) k = none := by
  rw [mapLookup_eq_none_iff]
  intro p hp
  exact (mem_mapErase.mp hp).2

theorem mapLookup_mapErase_ne {m : List (String × Nat)} {k k2 : String} (h : k2 ≠ k) :
    mapLookup (mapErase m k) k2 = mapLookup m k2 := by
  induction m with
  | nil => rfl
  | cons p m ih =>
    by_cases hp : p.1 = k
    · rw [show mapErase (p :: m) k = mapErase m k by simp [mapErase, hp], ih,
        mapLookup_cons]
      have hne : ¬ p.1 = k2 := by
        rw [hp]
        exact fun hh => h hh.symm
      simp [hne]
    · rw [show mapErase (p :: m) k = p :: mapErase m k by simp [mapErase, hp],
        mapLookup_cons, mapLookup_cons, ih]

theorem heapGet_cons_of_eq (p : Nat × Record) (h : List (Nat × Record)) {id : Nat}
    (heq : p.1 = id) : heapGet (p :: h) id = p.2 := by
  have hd : decide (p.1 = id) = true := by simp [heq]
  simp [heapGet, List.find?_cons, hd]

theorem heapGet_cons_of_ne (p : Nat × Record) (h : List (Nat × Record)) {id : Nat}
    (hne : p.1 ≠ id) : heapGet (p :: h) id = heapGet h id := by
  have hd : decide (p.1 = id) = false := by simp [hne]
  simp [heapGet, List.find?_cons, hd]

theorem heapGet_cons_self (h : List (Nat × Record)) (id : Nat) (r : Record) :
    heapGet ((id, r) :: h) id = r :=
  heapGet_cons_of_eq (id, r) h rfl

theorem heapSet_cons (p : Nat × Record) (h : List (Nat × Record)) (id : Nat) (r : Record) :
    heapSet (p :: h) id r = (if p.1 = id then (id, r) else p) :: heapSet h id r := by
  simp [heapSet]

theorem heapSet_map_fst (h : List (Nat × Record)) (id : Nat) (r : Record) :
    (heapSet h id r).map Prod.fst = h.map Prod.fst := by
  induction h with
  | nil => rfl
  | cons p h ih =>
    rw [heapSet_cons]
    by_cases hp : p.1 = id <;> simp [hp, ih]

theorem heapGet_heapSet_self {h : List (Nat × Record)} {id : Nat} (r : Record)
    (hm : id ∈ h.map Prod.fst) : heapGet (heapSet h id r) id = r := by
  induction h with
  | nil => simp at hm
  | cons p h ih =>
    rw [heapSet_cons]
    by_cases hp : p.1 = id
    · rw [if_pos hp, heapGet_cons_self]
    · rw [if_neg hp, heapGet_cons_of_ne p _ hp]
      have hm2 : id ∈ h.map Prod.fst := by
        simp only [List.map_cons, List.mem_cons] at hm
        rcases hm with hm | hm
        · exact absurd hm.symm hp
        · exact hm
      exact ih hm2

theorem heapGet_heapSet_ne {h : List (Nat × Record)} {id id2 : Nat} (r : Record)
    (hne : id2 ≠ id) : heapGet (heapSet h id r) id2 = heapGet h id2 := by
  induction h with
  | nil => rfl
  | cons p h ih =>
    rw [heapSet_cons]
    by_cases hp : p.1 = id
    · have hne2 : ((id, r) : Nat × Record).1 ≠ id2 := fun hh => hne hh.symm
      rw [if_pos hp, heapGet_cons_of_ne _ _ hne2, ih,
        heapGet_cons_of_ne p _ (by rw [hp]; exact fun hh => hne hh.symm)]
    · rw [if_neg hp]
      by_cases hq : p.1 = id2
      · rw [heapGet_cons_of_eq p _ hq, heapGet_cons_of_eq p _ hq]
      · rw [heapGet_cons_of_ne p _ hq, heapGet_cons_of_ne p _ hq, ih]

theorem heapSet_bound {h : List (Nat × Record)} {id n : Nat} (r : Record)
    (hb : ∀ p ∈ h, p.1 < n) : ∀ p ∈ heapSet h id r, p.1 < n := by
  intro q hq
  rcases List.mem_map.mp hq with ⟨p, hp, hp2⟩
  by_cases hpi : p.1 = id
  · rw [if_pos hpi] at hp2
    rw [← hp2]
    exact hpi ▸ hb p hp
  · rw [if_neg hpi] at hp2
    exact hp2 ▸ hb p hp

/-! ### Recency-list lemmas -/

theorem mem_filter_ne {ll : List Nat} {x id : Nat} :
    x ∈ ll.filter (fun y => y ≠ id) ↔ x ∈ ll ∧ x ≠ id := by
  simp [List.mem_filter]

theorem filter_ne_of_not_mem {ll : List Nat} {id : Nat} (h : id ∉ ll) :
    ll.filter (fun y => y ≠ id) = ll := by
  apply List.filter_eq_self.mpr
  intro a ha
  simp
  exact fun hh => h (hh ▸ ha)

theorem length_filter_ne_of_nodup {ll : List Nat} {id : Nat} (hn : ll.Nodup) (hm : id ∈ ll) :
    (ll.filter (fun y => y ≠ id)).length + 1 = ll.length := by
  induction ll with
  | nil => simp at hm
  | cons a ll ih =>
    rw [List.nodup_cons] at hn
    by_cases ha : a = id
    · subst ha
      rw [List.filter_cons_of_neg (by simp)]
      rw [filter_ne_of_not_mem hn.1, List.length_cons]
    · rcases List.mem_cons.mp hm with h | h
      · exact absurd h.symm ha
      · rw [List.filter_cons_of_pos (by simp [ha])]
        simp only [List.length_cons]
        rw [← ih hn.2 h]

theorem nodup_filter_ne {ll : List Nat} {id : Nat} (hn : ll.Nodup) :
    (ll.filter (fun y => y ≠ id)).Nodup :=
  List.Nodup.filter _ hn

theorem mem_llMoveToFront {ll : List Nat} {id x : Nat} :
    x ∈ llMoveToFront ll id ↔ x ∈ ll := by
  by_cases h : id ∈ ll
  · simp only [llMoveToFront, if_pos h, List.mem_cons, mem_filter_ne]
    constructor
    · rintro (rfl | ⟨hx, _⟩)
      · exact h
      · exact hx
    · intro hx
      by_cases hxi : x = id
      · exact Or.inl hxi
      · exact Or.inr ⟨hx, hxi⟩
  · rw [llMoveToFront, if_neg h]

theorem llMoveToFront_nodup {ll : List Nat} {id : Nat} (hn : ll.Nodup) :
    (llMoveToFront ll id).Nodup := by
  by_cases h : id ∈ ll
  · rw [llMoveToFront, if_pos h, List.nodup_cons]
    exact ⟨fun hc => (mem_filter_ne.mp hc).2 rfl, nodup_filter_ne hn⟩
  · rw [llMoveToFront, if_neg h]
    exact hn

theorem length_llMoveToFront {ll : List Nat} {id : Nat} (hn : ll.Nodup) :
    (llMoveToFront ll id).length = ll.length := by
  by_cases h : id ∈ ll
  · rw [llMoveToFront, if_pos h, List.length_cons, length_filter_ne_of_nodup hn h]
  · rw [llMoveToFront, if_neg h]

theorem head_llMoveToFront {ll : List Nat} {id : Nat} (hm : id ∈ ll) :
    (llMoveToFront ll id).head? = some id := by
  rw [llMoveToFront, if_pos hm]
  rfl

theorem getLast?_mem_list {l : List Nat} {a : Nat} (h : l.getLast? = some a) : a ∈ l := by
  rcases List.mem_getLast?_eq_getLast h with ⟨hne, heq⟩
  rw [heq]
  exact List.getLast_mem hne

/-! ### Record lemmas -/

theorem Core.withTTL_key (r : Record) (ttl now : Nat) :
    (Core.withTTL r ttl now).key = r.key := by
  rw [Core.withTTL]
  by_cases h : ttl > 0 <;> simp [h]

theorem Core.withTTL_value (r : Record) (ttl now : Nat) :
    (Core.withTTL r ttl now).value = r.value := by
  rw [Core.withTTL]
  by_cases h : ttl > 0 <;> simp [h]

theorem Core.withTTL_pos (r : Record) {ttl : Nat} (now : Nat) (h : 0 < ttl) :
    Core.withTTL r ttl now =
      { exp := now + ttl, timer := some (now + ttl), key := r.key, value := r.value } := by
  rw [Core.withTTL]
  simp [h]

theorem CacheS.cacheWithTTL_key (r : Record) (ttl now : Nat) :
    (CacheS.withTTL r ttl now).key = r.key := by
  rw [CacheS.withTTL]
  by_cases h : ttl > 0 <;> simp [h]

theorem CacheS.cacheWithTTL_value (r : Record) (ttl now : Nat) :
    (CacheS.withTTL r ttl now).value = r.value := by
  rw [CacheS.withTTL]
  by_cases h : ttl > 0 <;> simp [h]

/-! ### Shape lemmas for the engine operations -/

theorem Core.removeElement_fst (c : Core) (id : Nat) :
    (c.removeElement id).1 =
      { c with ll := c.ll.filter (fun x => x ≠ id)
             , cache := mapErase c.cache (heapGet c.heap id).key } := rfl

theorem Core.removeElement_snd (c : Core) (id : Nat) :
    (c.removeElement id).2 =
      (if c.onEvicted then [((heapGet c.heap id).key, (heapGet c.heap id).value)] else []) := rfl

theorem Core.store_eq_pos {c : Core} {k : String} {id : Nat}
    (h : mapLookup c.cache k = some id) (v : Val) (now : Nat) :
    c.store k v now =
      ({ c with heap := heapSet c.heap id
                  (Core.withTTL { heapGet c.heap id with value := v } c.ttl now) }, id) := by
  rw [Core.store, h]

theorem Core.store_eq_neg {c : Core} {k : String}
    (h : mapLookup c.cache k = none) (v : Val) (now : Nat) :
    c.store k v now =
      ({ c with nextId := c.nextId + 1
              , heap := (c.nextId,
                  Core.withTTL { exp := 0, timer := none, key := k, value := v } c.ttl now) :: c.heap
              , ll := c.ll ++ [c.nextId]
              , cache := mapInsert c.cache k c.nextId }, c.nextId) := by
  rw [Core.store, h]

/-! ### Well-formedness preservation, core variant -/

theorem Core.wf_removeElement {c : Core} {id : Nat} (hwf : c.WF) (hm : id ∈ c.ll) :
    (c.removeElement id).1.WF := by
  obtain ⟨h1, h2, h3, h4, h5, h6, h7⟩ := hwf
  rw [Core.removeElement_fst]
  unfold Core.WF
  dsimp only
  refine ⟨h1, h2, nodup_filter_ne h3, ?_, mapErase_keys_nodup h5, ?_, ?_⟩
  · intro x hx
    exact h4 x (mem_filter_ne.mp hx).1
  · intro p hp
    rcases mem_mapErase.mp hp with ⟨hpc, hpk⟩
    rcases h6 p hpc with ⟨hpll, hpkey⟩
    refine ⟨mem_filter_ne.mpr ⟨hpll, ?_⟩, hpkey⟩
    intro hpe
    apply hpk
    rw [← hpkey, hpe]
  · intro x hx
    rcases mem_filter_ne.mp hx with ⟨hxll, hxne⟩
    apply mem_mapErase.mpr
    refine ⟨h7 x hxll, ?_⟩
    intro hkey
    have hxc : ((heapGet c.heap x).key, x) ∈ c.cache := h7 x hxll
    have hidc : ((heapGet c.heap id).key, id) ∈ c.cache := h7 id hm
    have hkey2 : (heapGet c.heap x).key = (heapGet c.heap id).key := hkey
    rw [hkey2] at hxc
    exact hxne (assoc_functional h5 hxc hidc)

theorem Core.removeElement_len {c : Core} {id : Nat} (hn : c.ll.Nodup) (hm : id ∈ c.ll) :
    (c.removeElement id).1.ll.length + 1 = c.ll.length := by
  rw [Core.removeElement_fst]
  exact length_filter_ne_of_nodup hn hm

theorem Core.wf_store {c : Core} (k : String) (v : Val) (now : Nat) (hwf : c.WF) :
    ((c.store k v now).1).WF := by
  obtain ⟨h1, h2, h3, h4, h5, h6, h7⟩ := hwf
  match hlk : mapLookup c.cache k with
  | some id =>
    rw [Core.store_eq_pos hlk]
    unfold Core.WF
    dsimp only
    have hidll : id ∈ c.ll := (h6 _ (mapLookup_mem hlk)).1
    have hidheap : id ∈ c.heap.map Prod.fst := h4 id hidll
    have hkey : (heapGet c.heap id).key = k := (h6 _ (mapLookup_mem hlk)).2
    refine ⟨?_, ?_, h3, ?_, h5, ?_, ?_⟩
    · rw [heapSet_map_fst]
      exact h1
    · exact heapSet_bound _ h2
    · intro x hx
      rw [heapSet_map_fst]
      exact h4 x hx
    · intro p hp
      rcases h6 p hp with ⟨hpll, hpkey⟩
      refine ⟨hpll, ?_⟩
      by_cases hpe : p.2 = id
      · rw [hpe, heapGet_heapSet_self _ hidheap, Core.withTTL_key]
        dsimp only
        rw [hkey, ← hpkey, hpe, hkey]
      · rw [heapGet_heapSet_ne _ hpe]
        exact hpkey
    · intro x hx
      by_cases hxe : x = id
      · rw [hxe, heapGet_heapSet_self _ hidheap, Core.withTTL_key]
        dsimp only
        rw [hkey, ← hkey]
        exact h7 id hidll
      · rw [heapGet_heapSet_ne _ hxe]
        exact h7 x hx
  | none =>
    rw [Core.store_eq_neg hlk]
    unfold Core.WF
    dsimp only
    have hfresh_heap : c.nextId ∉ c.heap.map Prod.fst := by
      intro hc
      rcases List.mem_map.mp hc with ⟨p, hp, hp2⟩
      exact absurd (hp2 ▸ h2 p hp) (lt_irrefl _)
    have hfresh_ll : c.nextId ∉ c.ll := fun hc => hfresh_heap (h4 _ hc)
    refine ⟨?_, ?_, ?_, ?_, ?_, ?_, ?_⟩
    · simp only [List.map_cons]
      exact List.nodup_cons.mpr ⟨hfresh_heap, h1⟩
    · intro p hp
      rcases List.mem_cons.mp hp with hp | hp
      · rw [hp]
        exact Nat.lt_succ_self _
      · exact Nat.lt_succ_of_lt (h2 p hp)
    · rw [List.nodup_append]
      refine ⟨h3, List.nodup_singleton _, ?_⟩
      intro a ha hb
      rw [List.mem_singleton] at hb
      exact hfresh_ll (hb ▸ ha)
    · intro x hx
      rcases List.mem_append.mp hx with hx | hx
      · simp only [List.map_cons, List.mem_cons]
        exact Or.inr (h4 x hx)
      · simp only [List.mem_singleton] at hx
        simp [hx]
    · simp only [mapInsert, List.map_cons, List.nodup_cons]
      constructor
      · intro hc
        rcases List.mem_map.mp hc with ⟨p, hp, hp2⟩
        rcases List.mem_filter.mp hp with ⟨_, hpk⟩
        simp at hpk
        exact hpk hp2
      · exact List.Nodup.sublist (List.Sublist.map Prod.fst (List.filter_sublist _)) h5
    · intro p hp
      rcases List.mem_cons.mp hp with hp | hp
      · rw [hp]
        dsimp only
        refine ⟨List.mem_append.mpr (Or.inr (List.mem_singleton.mpr rfl)), ?_⟩
        rw [heapGet_cons_self, Core.withTTL_key]
      · rcases List.mem_filter.mp hp with ⟨hpc, _⟩
        rcases h6 p hpc with ⟨hpll, hpkey⟩
        have hpne : p.2 ≠ c.nextId := fun hc => hfresh_ll (hc ▸ hpll)
        refine ⟨List.mem_append.mpr (Or.inl hpll), ?_⟩
        rw [heapGet_cons_of_ne _ _ (fun hc => hpne hc.symm)]
        exact hpkey
    · intro x hx
      rcases List.mem_append.mp hx with hx | hx
      · have hxne : x ≠ c.nextId := fun hc => hfresh_ll (hc ▸ hx)
        rw [heapGet_cons_of_ne _ _ (fun hc => hxne hc.symm)]
        have hxc := h7 x hx
        apply List.mem_cons_of_mem
        apply List.mem_filter.mpr
        refine ⟨hxc, ?_⟩
        simp only [decide_eq_true_eq]
        intro hkeq
        rw [mapLookup_eq_none_iff] at hlk
        exact hlk _ hxc hkeq
      · simp only [List.mem_singleton] at hx
        rw [hx, heapGet_cons_self, Core.withTTL_key]
        exact List.mem_cons_self _ _

theorem Core.store_id_mem {c : Core} (k : String) (v : Val) (now : Nat) (hwf : c.WF) :
    (c.store k v now).2 ∈ (c.store k v now).1.ll := by
  obtain ⟨h1, h2, h3, h4, h5, h6, h7⟩ := hwf
  match hlk : mapLookup c.cache k with
  | some id =>
    rw [Core.store_eq_pos hlk]
    dsimp only
    exact (h6 _ (mapLookup_mem hlk)).1
  | none =>
    rw [Core.store_eq_neg hlk]
    dsimp only
    exact List.mem_append.mpr (Or.inr (List.mem_singleton.mpr rfl))

theorem Core.wf_moveToFront {c : Core} (id : Nat) (hwf : c.WF) :
    ({ c with ll := llMoveToFront c.ll id } : Core).WF := by
  obtain ⟨h1, h2, h3, h4, h5, h6, h7⟩ := hwf
  unfold Core.WF
  dsimp only
  refine ⟨h1, h2, llMoveToFront_nodup h3, ?_, h5, ?_, ?_⟩
  · intro x hx
    exact h4 x (mem_llMoveToFront.mp hx)
  · intro p hp
    rcases h6 p hp with ⟨hpll, hpkey⟩
    exact ⟨mem_llMoveToFront.mpr hpll, hpkey⟩
  · intro x hx
    exact h7 x (mem_llMoveToFront.mp hx)

/-! ### Shape lemmas for load and delete -/

theorem Core.load_eq_none {c : Core} {k : String} (now : Nat)
    (h : mapLookup c.cache k = none) :
    c.load k now = (none, false, none, c, []) := by
  rw [Core.load, h]

theorem Core.load_eq_expired {c : Core} {k : String} {id : Nat} {now : Nat}
    (h : mapLookup c.cache k = some id) (ht : 0 < c.ttl)
    (he : now > (heapGet c.heap id).exp) :
    c.load k now = (some id, true, some CacheErr.cachedExp,
      (c.removeElement id).1, (c.removeElement id).2) := by
  rw [Core.load, h]
  dsimp only
  rw [if_pos ht, if_pos he]

theorem Core.load_eq_live {c : Core} {k : String} {id : Nat} {now : Nat}
    (h : mapLookup c.cache k = some id)
    (hl : ¬(0 < c.ttl ∧ now > (heapGet c.heap id).exp)) :
    c.load k now = (some id, true, none, c, []) := by
  rw [Core.load, h]
  dsimp only
  by_cases h1 : 0 < c.ttl
  · rw [if_pos h1, if_neg (fun h2 => hl ⟨h1, h2⟩)]
  · rw [if_neg h1]

theorem Core.delete_eq_pos {c : Core} {k : String} {id : Nat}
    (h : mapLookup c.cache k = some id) :
    c.delete k = c.removeElement id := by
  rw [Core.delete, h]

theorem Core.delete_eq_neg {c : Core} {k : String}
    (h : mapLookup c.cache k = none) :
    c.delete k = (c, []) := by
  rw [Core.delete, h]

/-! ### Shape lemmas for the LRU wrapper -/

theorem LRU.Load_eq_miss {l : LRU} {k : String} (now : Nat)
    (h : mapLookup l.c.cache k = none) :
    l.Load k now = (none, false, none, l, []) := by
  unfold LRU.Load
  rw [Core.load_eq_none now h]
  dsimp only
  rw [if_neg (by simp)]

theorem LRU.Load_eq_live {l : LRU} {k : String} {id : Nat} {now : Nat}
    (h : mapLookup l.c.cache k = some id)
    (hl : ¬(0 < l.c.ttl ∧ now > (heapGet l.c.heap id).exp)) :
    l.Load k now = (some (heapGet l.c.heap id).value, true, none,
      { l with c := { l.c with ll := llMoveToFront l.c.ll id } }, []) := by
  unfold LRU.Load
  rw [Core.load_eq_live h hl]
  dsimp only
  rw [if_pos ⟨rfl, rfl⟩]

theorem LRU.Load_eq_expired {l : LRU} {k : String} {id : Nat} {now : Nat}
    (h : mapLookup l.c.cache k = some id) (ht : 0 < l.c.ttl)
    (he : now > (heapGet l.c.heap id).exp) :
    l.Load k now = (none, true, some CacheErr.cachedExp,
      { l with c := (l.c.removeElement id).1 }, (l.c.removeElement id).2) := by
  unfold LRU.Load
  rw [Core.load_eq_expired h ht he]
  dsimp only
  rw [if_neg (by simp)]

theorem LRU.Clear_fst (l : LRU) : (l.Clear).1 = l := by
  unfold LRU.Clear
  split <;> rfl

/-! ### Well-formedness preservation, LRU wrapper -/

theorem LRU.wf_removeOldest {l : LRU} (hwf : l.WF) : (l.removeOldest).1.WF := by
  unfold LRU.removeOldest
  split
  · next id hg => exact Core.wf_removeElement hwf (getLast?_mem_list hg)
  · exact hwf

theorem LRU.wf_Store {l : LRU} (k : String) (v : Val) (now : Nat) (hwf : l.WF) :
    ((l.Store k v now).1).WF := by
  unfold LRU.Store
  dsimp only
  have hwf1 : (l.set).c.WF := hwf
  have hwf2 : ((l.set).c.store k v now).1.WF := Core.wf_store k v now hwf1
  have hwf3 : ({ ((l.set).c.store k v now).1 with
      ll := llMoveToFront ((l.set).c.store k v now).1.ll
        ((l.set).c.store k v now).2 } : Core).WF :=
    Core.wf_moveToFront _ hwf2
  split
  · exact LRU.wf_removeOldest hwf3
  · exact hwf3

theorem LRU.wf_Load {l : LRU} (k : String) (now : Nat) (hwf : l.WF) :
    ((l.Load k now).2.2.2.1).WF := by
  match hlk : mapLookup l.c.cache k with
  | none =>
    rw [LRU.Load_eq_miss now hlk]
    exact hwf
  | some id =>
    have hidll : id ∈ l.c.ll := by
      obtain ⟨h1, h2, h3, h4, h5, h6, h7⟩ := hwf
      exact (h6 _ (mapLookup_mem hlk)).1
    by_cases hx : 0 < l.c.ttl ∧ now > (heapGet l.c.heap id).exp
    · rw [LRU.Load_eq_expired hlk hx.1 hx.2]
      dsimp only
      exact Core.wf_removeElement hwf hidll
    · rw [LRU.Load_eq_live hlk hx]
      dsimp only
      exact Core.wf_moveToFront _ hwf

theorem LRU.wf_Delete {l : LRU} (k : String) (hwf : l.WF) : ((l.Delete k).1).WF := by
  unfold LRU.Delete
  match hlk : mapLookup l.c.cache k with
  | none =>
    rw [Core.delete_eq_neg hlk]
    exact hwf
  | some id =>
    have hidll : id ∈ l.c.ll := by
      obtain ⟨h1, h2, h3, h4, h5, h6, h7⟩ := hwf
      exact (h6 _ (mapLookup_mem hlk)).1
    rw [Core.delete_eq_pos hlk]
    exact Core.wf_removeElement hwf hidll

/-! ### Accessors for the well-formedness conjuncts -/

theorem Core.WF.heap_nodup {c : Core} (h : c.WF) : (c.heap.map Prod.fst).Nodup := h.1

theorem Core.WF.heap_lt {c : Core} (h : c.WF) : ∀ p ∈ c.heap, p.1 < c.nextId := h.2.1

theorem Core.WF.ll_nodup {c : Core} (h : c.WF) : c.ll.Nodup := h.2.2.1

theorem Core.WF.ll_heap {c : Core} (h : c.WF) : ∀ id ∈ c.ll, id ∈ c.heap.map Prod.fst :=
  h.2.2.2.1

theorem Core.WF.cache_nodup {c : Core} (h : c.WF) : (c.cache.map Prod.fst).Nodup :=
  h.2.2.2.2.1

theorem Core.WF.cache_ll {c : Core} (h : c.WF) :
    ∀ p ∈ c.cache, p.2 ∈ c.ll ∧ (heapGet c.heap p.2).key = p.1 := h.2.2.2.2.2.1

theorem Core.WF.ll_cache {c : Core} (h : c.WF) :
    ∀ id ∈ c.ll, ((heapGet c.heap id).key, id) ∈ c.cache := h.2.2.2.2.2.2

/-! ### Length bookkeeping -/

theorem LRU.removeOldest_len {l : LRU} (hwf : l.WF) (hne : l.c.ll ≠ []) :
    (l.removeOldest).1.Len + 1 = l.Len := by
  unfold LRU.removeOldest
  split
  · next id hg =>
    exact Core.removeElement_len (Core.WF.ll_nodup hwf) (getLast?_mem_list hg)
  · next hg => exact absurd (List.getLast?_eq_none_iff.mp hg) hne

theorem LRU.removeOldest_fields (l : LRU) :
    (l.removeOldest).1.MaxEntries = l.MaxEntries ∧
    (l.removeOldest).1.OnEvicted = l.OnEvicted ∧
    (l.removeOldest).1.TTL = l.TTL := by
  unfold LRU.removeOldest
  split
  · exact ⟨rfl, rfl, rfl⟩
  · exact ⟨rfl, rfl, rfl⟩

theorem LRU.Store_fields (l : LRU) (k : String) (v : Val) (now : Nat) :
    (l.Store k v now).1.MaxEntries = l.MaxEntries ∧
    (l.Store k v now).1.OnEvicted = l.OnEvicted ∧
    (l.Store k v now).1.TTL = l.TTL := by
  unfold LRU.Store
  dsimp only
  split
  · exact LRU.removeOldest_fields _
  · exact ⟨rfl, rfl, rfl⟩

theorem LRU.Store_Len_le {l : LRU} (k : String) (v : Val) (now : Nat) (hwf : l.WF)
    (hN : l.MaxEntries ≠ 0) (hlen : l.Len ≤ l.MaxEntries) :
    ((l.Store k v now).1).Len ≤ l.MaxEntries := by
  have hwf1 : (l.set).c.WF := hwf
  have hwf2 := Core.wf_store k v now hwf1
  have hmv : (llMoveToFront (((l.set).c.store k v now).1).ll
      (((l.set).c.store k v now).2)).length
      = (((l.set).c.store k v now).1).ll.length :=
    length_llMoveToFront (Core.WF.ll_nodup hwf2)
  have hlen2 : (((l.set).c.store k v now).1).ll.length ≤ l.c.ll.length + 1 := by
    match hlk : mapLookup (l.set).c.cache k with
    | some id =>
      rw [Core.store_eq_pos hlk]
      exact Nat.le_succ_of_le (Nat.le_refl _)
    | none =>
      rw [Core.store_eq_neg hlk]
      dsimp only
      rw [List.length_append]
      exact Nat.le_refl _
  unfold LRU.Store
  dsimp only
  split
  · next hcond =>
    have hcond2 : l.MaxEntries ≠ 0 ∧
        (llMoveToFront (((l.set).c.store k v now).1).ll
          (((l.set).c.store k v now).2)).length > l.MaxEntries := hcond
    have hwf3 : ({ l.set with c := { ((l.set).c.store k v now).1 with
        ll := llMoveToFront (((l.set).c.store k v now).1).ll
          (((l.set).c.store k v now).2) } } : LRU).WF :=
      Core.wf_moveToFront _ hwf2
    have hne : (llMoveToFront (((l.set).c.store k v now).1).ll
        (((l.set).c.store k v now).2)) ≠ [] := by
      intro hc
      rw [hc] at hcond2
      simp at hcond2
    have hrem := LRU.removeOldest_len (l := { l.set with
        c := { ((l.set).c.store k v now).1 with
          ll := llMoveToFront (((l.set).c.store k v now).1).ll
            (((l.set).c.store k v now).2) } }) hwf3 hne
    have hfin : (({ l.set with c := { ((l.set).c.store k v now).1 with
        ll := llMoveToFront (((l.set).c.store k v now).1).ll
          (((l.set).c.store k v now).2) } } : LRU).removeOldest).1.Len
        ≤ l.MaxEntries := by
      unfold LRU.Len at hrem hlen ⊢
      dsimp only at hrem ⊢
      omega
    exact hfin
  · next hcond =>
    have hcond2 : ¬(l.MaxEntries ≠ 0 ∧
        (llMoveToFront (((l.set).c.store k v now).1).ll
          (((l.set).c.store k v now).2)).length > l.MaxEntries) := hcond
    rw [not_and_or] at hcond2
    rcases hcond2 with hcond2 | hcond2
    · exact absurd hN (by simpa using hcond2)
    · have hfin : (llMoveToFront (((l.set).c.store k v now).1).ll
          (((l.set).c.store k v now).2)).length ≤ l.MaxEntries := by omega
      exact hfin

theorem mapLookup_mapInsert_self (m : List (String × Nat)) (k : String) (id : Nat) :
    mapLookup (mapInsert m k id) k = some id := by
  rw [mapInsert, mapLookup_cons]
  simp

theorem llMoveToFront_append_fresh {ll : List Nat} {id : Nat} (h : id ∉ ll) :
    llMoveToFront (ll ++ [id]) id = id :: ll := by
  rw [llMoveToFront, if_pos (List.mem_append.mpr (Or.inr (List.mem_singleton.mpr rfl)))]
  rw [List.filter_append, filter_ne_of_not_mem h]
  simp

/-- What `Store` leaves behind for the stored key, in an uncapped cache with a
positive TTL: the key is bound to an element whose record carries the value
and the freshly stamped expiry `now + TTL`, with an armed trigger. -/
theorem LRU.Store_unbounded_lookup {l : LRU} (k : String) (v : Val) (now : Nat)
    (hwf : l.WF) (hmax : l.MaxEntries = 0) (httl : 0 < l.TTL) :
    ∃ id, mapLookup ((l.Store k v now).1).c.cache k = some id ∧
      heapGet ((l.Store k v now).1).c.heap id =
        { exp := now + l.TTL, timer := some (now + l.TTL), key := k, value := v } ∧
      ((l.Store k v now).1).c.ttl = l.TTL ∧
      ((l.Store k v now).1).c.onEvicted = l.OnEvicted ∧
      ((l.Store k v now).1).WF := by
  have hwf1 : (l.set).c.WF := hwf
  have hwfS : ((l.Store k v now).1).WF := LRU.wf_Store k v now hwf
  unfold LRU.Store
  dsimp only
  rw [if_neg (fun hc => hc.1 hmax)]
  dsimp only
  unfold LRU.Store at hwfS
  dsimp only at hwfS
  rw [if_neg (fun hc => hc.1 hmax)] at hwfS
  refine ⟨(((l.set).c.store k v now)).2, ?_, ?_, ?_, ?_, hwfS⟩
  · match hlk : mapLookup (l.set).c.cache k with
    | some id =>
      rw [Core.store_eq_pos hlk]
      dsimp only
      exact hlk
    | none =>
      rw [Core.store_eq_neg hlk]
      dsimp only
      exact mapLookup_mapInsert_self _ _ _
  · have hset_ttl : (l.set).c.ttl = l.TTL := rfl
    match hlk : mapLookup (l.set).c.cache k with
    | some id =>
      rw [Core.store_eq_pos hlk]
      dsimp only
      have hkey : (heapGet (l.set).c.heap id).key = k :=
        (Core.WF.cache_ll hwf1 _ (mapLookup_mem hlk)).2
      have hidheap : id ∈ (l.set).c.heap.map Prod.fst :=
        Core.WF.ll_heap hwf1 id (Core.WF.cache_ll hwf1 _ (mapLookup_mem hlk)).1
      rw [heapGet_heapSet_self _ hidheap, hset_ttl, Core.withTTL_pos _ _ httl]
      dsimp only
      rw [hkey]
    | none =>
      rw [Core.store_eq_neg hlk]
      dsimp only
      rw [heapGet_cons_self, hset_ttl, Core.withTTL_pos _ _ httl]
  · match hlk : mapLookup (l.set).c.cache k with
    | some id =>
      rw [Core.store_eq_pos hlk]
      exact rfl
    | none =>
      rw [Core.store_eq_neg hlk]
      exact rfl
  · match hlk : mapLookup (l.set).c.cache k with
    | some id =>
      rw [Core.store_eq_pos hlk]
      exact rfl
    | none =>
      rw [Core.store_eq_neg hlk]
      exact rfl

/-- What an expired `Load` does: nil value, `ok` still true, the distinguished
expired error, the entry unlinked and unbound, the callback fired exactly once
with the entry key and value (when configured). -/
theorem LRU.Load_expired_spec {l : LRU} {k : String} {id : Nat} {now : Nat}
    (hwf : l.WF) (h : mapLookup l.c.cache k = some id) (ht : 0 < l.c.ttl)
    (he : now > (heapGet l.c.heap id).exp) :
    (l.Load k now).1 = none ∧ (l.Load k now).2.1 = true ∧
    (l.Load k now).2.2.1 = some CacheErr.cachedExp ∧
    (l.Load k now).2.2.2.2 =
      (if l.c.onEvicted then [(k, (heapGet l.c.heap id).value)] else []) ∧
    mapLookup ((l.Load k now).2.2.2.1).c.cache k = none ∧
    ((l.Load k now).2.2.2.1).Len + 1 = l.Len := by
  have hkey : (heapGet l.c.heap id).key = k :=
    (Core.WF.cache_ll hwf _ (mapLookup_mem h)).2
  have hll : id ∈ l.c.ll := (Core.WF.cache_ll hwf _ (mapLookup_mem h)).1
  rw [LRU.Load_eq_expired h ht he]
  dsimp only
  refine ⟨rfl, rfl, rfl, ?_, ?_, ?_⟩
  · rw [Core.removeElement_snd, hkey]
  · rw [Core.removeElement_fst]
    dsimp only
    rw [hkey]
    exact mapLookup_mapErase_self _ _
  · unfold LRU.Len
    dsimp only
    exact Core.removeElement_len (Core.WF.ll_nodup hwf) hll

/-! ### Shape lemmas for the cache variant -/

theorem CacheS.update_eq_none {c : CacheS} {k : String} (v : Val)
    (h : mapLookup c.items k = none) : c.update k v = c := by
  rw [CacheS.update, h]

theorem CacheS.update_eq_some {c : CacheS} {k : String} {id : Nat} (v : Val)
    (h : mapLookup c.items k = some id) :
    c.update k v =
      { c with heap := heapSet c.heap id { heapGet c.heap id with value := v } } := by
  rw [CacheS.update, h]

theorem CacheS.load_live_eq {c : CacheS} {k : String} {id : Nat} {now : Nat}
    (h : mapLookup c.items k = some id)
    (hl : ¬(0 < c.ttl ∧ now > (heapGet c.heap id).exp)) :
    c.load k now = (some id, true, none, c, []) := by
  rw [CacheS.load, h]
  dsimp only
  by_cases h1 : 0 < c.ttl
  · rw [if_pos h1, if_neg (fun h2 => hl ⟨h1, h2⟩)]
  · rw [if_neg h1]

theorem CacheS.removeElement_eq (c : CacheS) (id : Nat) :
    c.removeElement id =
      { c with list := c.list.filter (fun x => x ≠ id)
             , heap := heapSet c.heap id { heapGet c.heap id with timer := none }
             , items := mapErase c.items (heapGet c.heap id).key } := rfl

theorem CacheS.store_pos_eq {c : CacheS} {k : String} {id : Nat}
    (h : mapLookup c.items k = some id) (v : Val) (now : Nat) :
    c.store k v now =
      ({ c.removeElement id with
           nextId := (c.removeElement id).nextId + 1
         , heap := ((c.removeElement id).nextId,
             CacheS.withTTL { exp := 0, timer := none, key := k, value := v }
               (c.removeElement id).ttl now) :: (c.removeElement id).heap
         , list := (c.removeElement id).list ++ [(c.removeElement id).nextId]
         , items := mapInsert (c.removeElement id).items k
             (c.removeElement id).nextId }, (c.removeElement id).nextId) := by
  rw [CacheS.store, h]

/-! ### Eviction-order machinery -/

theorem LRU.New_WF (n : Nat) : (LRU.New n).WF := by
  unfold LRU.New LRU.WF Core.WF
  dsimp only
  refine ⟨List.nodup_nil, ?_, List.nodup_nil, ?_, List.nodup_nil, ?_, ?_⟩ <;>
    intro p hp <;> simp at hp

theorem LRU.removeOldest_eq_pos {l : LRU} {id : Nat} (h : l.c.ll.getLast? = some id) :
    l.removeOldest = ({ l with c := (l.c.removeElement id).1 }, (l.c.removeElement id).2) := by
  rw [LRU.removeOldest, h]

theorem LRU.Reps_lookup_none {l : LRU} {N : Nat} {C : List (String × Val)}
    (hrep : l.Reps N C) {k : String} (hk : ∀ p ∈ C, p.1 ≠ k) :
    mapLookup l.c.cache k = none := by
  obtain ⟨hwf, _, _, hent, _⟩ := hrep
  rw [mapLookup_eq_none_iff]
  intro p hp
  have hc := Core.WF.cache_ll hwf p hp
  have hmem : (p.1, (heapGet l.c.heap p.2).value) ∈ l.entries := by
    unfold LRU.entries
    apply List.mem_map.mpr
    exact ⟨p.2, hc.1, by rw [hc.2]⟩
  rw [hent, List.mem_reverse] at hmem
  exact hk _ hmem

/-- Staged form of a fresh-key `Store`: before the capacity check, the new
entry sits at the front of the order and everything else is untouched. -/
theorem LRU.Store_stage_spec {l : LRU} {k : String} (v : Val) (t : Nat)
    (hwf : l.WF) (hlk : mapLookup l.c.cache k = none) :
    ∃ l2 : LRU,
      (l.Store k v t = if l2.MaxEntries ≠ 0 ∧ l2.c.ll.length > l2.MaxEntries
          then l2.removeOldest else (l2, [])) ∧
      l2.entries = (k, v) :: l.entries ∧
      l2.c.ll.length = l.c.ll.length + 1 ∧
      l2.MaxEntries = l.MaxEntries ∧
      l2.OnEvicted = l.OnEvicted ∧
      l2.c.onEvicted = l.OnEvicted ∧
      l2.WF := by
  have hwf1 : (l.set).c.WF := hwf
  have hlk1 : mapLookup (l.set).c.cache k = none := hlk
  have hwf2 := Core.wf_store k v t hwf1
  have hfresh_ll : (l.set).c.nextId ∉ (l.set).c.ll := by
    intro hc
    rcases List.mem_map.mp (Core.WF.ll_heap hwf1 _ hc) with ⟨p, hp, hp2⟩
    exact absurd (hp2 ▸ Core.WF.heap_lt hwf1 p hp) (lt_irrefl _)
  refine ⟨{ l.set with c := { ((l.set).c.store k v t).1 with
      ll := llMoveToFront ((l.set).c.store k v t).1.ll ((l.set).c.store k v t).2 } },
      rfl, ?_, ?_, rfl, rfl, ?_, Core.wf_moveToFront _ hwf2⟩
  · unfold LRU.entries
    dsimp only
    rw [Core.store_eq_neg hlk1]
    dsimp only
    rw [llMoveToFront_append_fresh hfresh_ll]
    simp only [List.map_cons, heapGet_cons_self, Core.withTTL_key, Core.withTTL_value]
    congr 1
    apply List.map_congr_left
    intro x hx
    have hxlt : x < (l.set).c.nextId := by
      rcases List.mem_map.mp (Core.WF.ll_heap hwf1 _ hx) with ⟨p, hp, hp2⟩
      exact hp2 ▸ Core.WF.heap_lt hwf1 p hp
    rw [heapGet_cons_of_ne _ _ (Nat.ne_of_gt hxlt)]
    exact rfl
  · rw [Core.store_eq_neg hlk1]
    dsimp only
    rw [llMoveToFront_append_fresh hfresh_ll]
    exact rfl
  · rw [Core.store_eq_neg hlk1]
    exact rfl

/-- Removing the oldest entry pops exactly the last element of the entry
list and reports it through the callback. -/
theorem LRU.entries_removeOldest {l : LRU} (hwf : l.WF) {E : List (String × Val)}
    {e : String × Val} (hent : l.entries = E ++ [e]) :
    (l.removeOldest).1.entries = E ∧
    (l.removeOldest).2 = (if l.c.onEvicted then [e] else []) := by
  have hllne : l.c.ll ≠ [] := by
    intro hc
    unfold LRU.entries at hent
    rw [hc] at hent
    simp at hent
  obtain ⟨init, a, hinit⟩ : ∃ init a, l.c.ll = init ++ [a] :=
    ⟨l.c.ll.dropLast, l.c.ll.getLast hllne, (List.dropLast_append_getLast hllne).symm⟩
  have hlast : l.c.ll.getLast? = some a := by
    rw [hinit]
    exact List.getLast?_concat _
  have hmap : l.entries =
      init.map (fun x => ((heapGet l.c.heap x).key, (heapGet l.c.heap x).value))
      ++ [((heapGet l.c.heap a).key, (heapGet l.c.heap a).value)] := by
    unfold LRU.entries
    rw [hinit, List.map_append]
    rfl
  have hlen2 : (init.map
      (fun x => ((heapGet l.c.heap x).key, (heapGet l.c.heap x).value))).length
      = E.length := by
    have h2 := congrArg List.length (hmap.symm.trans hent)
    simp only [List.length_append, List.length_singleton] at h2
    omega
  obtain ⟨hE, he⟩ := List.append_inj (hmap.symm.trans hent) hlen2
  have hepair : ((heapGet l.c.heap a).key, (heapGet l.c.heap a).value) = e := by
    simpa using he
  have hanotin : a ∉ init := by
    have h2 := Core.WF.ll_nodup hwf
    rw [hinit, List.nodup_append] at h2
    intro hc
    exact h2.2.2 hc (List.mem_singleton.mpr rfl)
  rw [LRU.removeOldest_eq_pos hlast]
  dsimp only
  constructor
  · unfold LRU.entries
    rw [Core.removeElement_fst]
    dsimp only
    have hfilter : l.c.ll.filter (fun x => x ≠ a) = init := by
      rw [hinit, List.filter_append, filter_ne_of_not_mem hanotin]
      simp
    rw [hfilter, hE]
  · rw [Core.removeElement_snd, hepair]

/-- One fresh-key `Store` against a representative cache: below capacity it
evicts nothing and appends the pair to the chronology; at capacity it evicts
exactly the oldest pair (reported through the callback) and rotates the
chronology. -/
theorem LRU.Store_step_reps {l : LRU} {N : Nat} {C : List (String × Val)}
    (hrep : l.Reps N C) (hN : 0 < N) {k : String} (v : Val) (t : Nat)
    (hk : ∀ p ∈ C, p.1 ≠ k) :
    (C.length < N →
      (l.Store k v t).2 = [] ∧ (l.Store k v t).1.Reps N (C ++ [(k, v)])) ∧
    (C.length = N →
      (l.Store k v t).2 = C.take 1 ∧
      (l.Store k v t).1.Reps N (C.drop 1 ++ [(k, v)])) := by
  obtain ⟨hwf, hmax, hcb, hent, hlen⟩ := hrep
  have hlk : mapLookup l.c.cache k = none :=
    LRU.Reps_lookup_none ⟨hwf, hmax, hcb, hent, hlen⟩ hk
  obtain ⟨l2, hite, hent2, hlen2, hmax2, hcb2, hcoreev2, hwf2⟩ :=
    LRU.Store_stage_spec v t hwf hlk
  have hlllen : l.c.ll.length = C.length := by
    have h2 := congrArg List.length hent
    unfold LRU.entries at h2
    simpa using h2
  constructor
  · intro hlt
    have hcond : ¬(l2.MaxEntries ≠ 0 ∧ l2.c.ll.length > l2.MaxEntries) := by
      intro hc
      rw [hmax2, hmax] at hc
      rw [hlen2, hlllen] at hc
      omega
    rw [hite, if_neg hcond]
    refine ⟨rfl, hwf2, by rw [hmax2, hmax], by rw [hcb2, hcb], ?_, ?_⟩
    · rw [hent2, hent, List.reverse_append]
      rfl
    · rw [List.length_append, List.length_singleton]
      omega
  · intro heq
    have hcond : l2.MaxEntries ≠ 0 ∧ l2.c.ll.length > l2.MaxEntries := by
      rw [hmax2, hmax, hlen2, hlllen]
      omega
    rw [hite, if_pos hcond]
    obtain ⟨a, Ct, hC⟩ := List.exists_cons_of_length_pos
      (by omega : 0 < C.length)
    subst hC
    have hsplit2 : l2.entries = ((k, v) :: Ct.reverse) ++ [a] := by
      rw [hent2, hent]
      simp
    obtain ⟨hre, hrev⟩ := LRU.entries_removeOldest hwf2 hsplit2
    refine ⟨?_, ?_⟩
    · rw [hrev, hcoreev2, hcb, if_pos rfl]
      rfl
    · refine ⟨LRU.wf_removeOldest hwf2, ?_, ?_, ?_, ?_⟩
      · rw [(LRU.removeOldest_fields l2).1, hmax2, hmax]
      · rw [(LRU.removeOldest_fields l2).2.1, hcb2, hcb]
      · rw [hre]
        simp
      · simp only [List.drop_succ_cons, List.drop_zero, List.length_append,
          List.length_singleton]
        simp only [List.length_cons] at heq
        omega

/-- Running a sequence of fresh, pairwise-distinct stores against a
representative cache: the callback trace is exactly the over-capacity front
of the combined chronology, and the final cache represents its within-capacity
tail. -/
theorem LRU.runStores_reps {N : Nat} (hN : 0 < N) :
    ∀ (ops : List (String × Val × Nat)) (l : LRU) (C : List (String × Val)),
      l.Reps N C →
      ((ops.map (fun o => o.1)).Nodup) →
      (∀ o ∈ ops, ∀ p ∈ C, p.1 ≠ o.1) →
      (l.runStores ops).2 =
        (C ++ ops.map (fun o => (o.1, o.2.1))).take (C.length + ops.length - N) ∧
      (l.runStores ops).1.Reps N
        ((C ++ ops.map (fun o => (o.1, o.2.1))).drop (C.length + ops.length - N)) := by
  intro ops
  induction ops with
  | nil =>
    intro l C hrep hnd hfr
    have h0 : C.length + ([] : List (String × Val × Nat)).length - N = 0 := by
      have := hrep.2.2.2.2
      simp only [List.length_nil]
      omega
    rw [h0]
    simp only [List.map_nil, List.append_nil, List.take_zero, List.drop_zero]
    exact ⟨rfl, hrep⟩
  | cons op rest ih =>
    intro l C hrep hnd hfr
    obtain ⟨k, v, t⟩ := op
    have hkC : ∀ p ∈ C, p.1 ≠ k := by
      intro p hp
      exact hfr (k, v, t) (List.mem_cons_self _ _) p hp
    have hstep := LRU.Store_step_reps hrep hN v t hkC
    have hCle : C.length ≤ N := hrep.2.2.2.2
    have hndrest : (rest.map (fun o => o.1)).Nodup := by
      simp only [List.map_cons, List.nodup_cons] at hnd
      exact hnd.2
    have hkrest : k ∉ rest.map (fun o => o.1) := by
      simp only [List.map_cons, List.nodup_cons] at hnd
      exact hnd.1
    unfold LRU.runStores
    dsimp only
    rcases Nat.lt_or_ge C.length N with hlt | hge
    · obtain ⟨hev1, hrep1⟩ := hstep.1 hlt
      have hfr1 : ∀ o ∈ rest, ∀ p ∈ C ++ [(k, v)], p.1 ≠ o.1 := by
        intro o ho p hp
        rcases List.mem_append.mp hp with hp | hp
        · exact hfr o (List.mem_cons_of_mem _ ho) p hp
        · rw [List.mem_singleton] at hp
          rw [hp]
          intro hc
          apply hkrest
          have hc2 : k = o.1 := hc
          rw [hc2]
          exact List.mem_map_of_mem _ ho
      obtain ⟨hIH1, hIH2⟩ := ih ((l.Store k v t).1) (C ++ [(k, v)]) hrep1 hndrest hfr1
      have hEq : ((C ++ [(k, v)]) ++ rest.map (fun o => (o.1, o.2.1)))
          = C ++ ((k, v, t) :: rest).map (fun o => (o.1, o.2.1)) := by
        rw [List.append_assoc, List.singleton_append]
        rfl
      have hIx : (C ++ [(k, v)]).length + rest.length - N
          = C.length + ((k, v, t) :: rest).length - N := by
        simp only [List.length_append, List.length_singleton, List.length_cons, List.length_nil]
        omega
      rw [hEq, hIx] at hIH1 hIH2
      exact ⟨by rw [hev1, hIH1, List.nil_append], hIH2⟩
    · have heqN : C.length = N := Nat.le_antisymm hCle hge
      obtain ⟨hev1, hrep1⟩ := hstep.2 heqN
      have hfr1 : ∀ o ∈ rest, ∀ p ∈ C.drop 1 ++ [(k, v)], p.1 ≠ o.1 := by
        intro o ho p hp
        rcases List.mem_append.mp hp with hp | hp
        · exact hfr o (List.mem_cons_of_mem _ ho) p (List.drop_subset _ _ hp)
        · rw [List.mem_singleton] at hp
          rw [hp]
          intro hc
          apply hkrest
          have hc2 : k = o.1 := hc
          rw [hc2]
          exact List.mem_map_of_mem _ ho
      obtain ⟨hIH1, hIH2⟩ := ih ((l.Store k v t).1) (C.drop 1 ++ [(k, v)]) hrep1 hndrest hfr1
      obtain ⟨a, Ct, hC⟩ := List.exists_cons_of_length_pos (by omega : 0 < C.length)
      subst hC
      simp only [List.length_cons] at heqN
      simp only [List.drop_succ_cons, List.drop_zero] at hev1 hrep1 hIH1 hIH2
      simp only [List.take_succ_cons, List.take_zero] at hev1
      have hIx1 : (Ct ++ [(k, v)]).length + rest.length - N = rest.length := by
        simp only [List.length_append, List.length_singleton, List.length_cons,
          List.length_nil]
        omega
      rw [hIx1] at hIH1 hIH2
      have hIx2 : (a :: Ct).length + ((k, v, t) :: rest).length - N
          = rest.length + 1 := by
        simp only [List.length_cons]
        omega
      rw [hIx2]
      have hLst : ((a :: Ct) ++ ((k, v, t) :: rest).map (fun o => (o.1, o.2.1)))
          = a :: ((Ct ++ [(k, v)]) ++ rest.map (fun o => (o.1, o.2.1))) := by
        simp only [List.map_cons, List.cons_append, List.append_assoc,
          List.singleton_append, List.nil_append]
      rw [hLst]
      constructor
      · rw [hev1, hIH1, List.take_succ_cons, List.singleton_append]
      · rw [List.drop_succ_cons]
        exact hIH2

/-! ### Claim theorems -/

/-- C6: after every public operation (Store, Load, Delete, RemoveOldest, Clear;
Len and Keys do not mutate the state) the key map and the recency list remain
mutually consistent: every binding points at exactly one linked node carrying
that key, and every linked node's key is bound back to it (`Core.WF`). -/
theorem C6_index_order_consistent (l : LRU) (k : String) (v : Val) (now : Nat)
    (hwf : l.WF) :
    ((l.Store k v now).1).WF ∧ ((l.Load k now).2.2.2.1).WF ∧ ((l.Delete k).1).WF ∧
    ((l.RemoveOldest).1).WF ∧ ((l.Clear).1).WF :=
  ⟨LRU.wf_Store k v now hwf, LRU.wf_Load k now hwf, LRU.wf_Delete k hwf,
   LRU.wf_removeOldest hwf, by rw [LRU.Clear_fst]; exact hwf⟩

/-- Witness for C6 at a concrete well-formed cache. -/
theorem C6_witness :
    (((LRU.New 2).Store "a" 0 0).1).WF ∧
    (((LRU.New 2).Load "a" 0).2.2.2.1).WF ∧
    (((LRU.New 2).Delete "a").1).WF ∧
    (((LRU.New 2).RemoveOldest).1).WF ∧
    (((LRU.New 2).Clear).1).WF :=
  C6_index_order_consistent (LRU.New 2) "a" 0 0 (by decide)

/-- C3: with a positive capacity `N`, after every `Store` of any sequence of
stores the number of live entries stays at most `N`; overflow is resolved by
evicting the least-recently-used entry inside `Store` itself (never by
rejecting it — `Store` is total and returns normally). Quantifying over all
sequences covers "after each operation", every prefix being a sequence. -/
theorem C3_capacity_invariant (N : Nat) (l : LRU) (ops : List (String × Val × Nat))
    (hN : 0 < N) (hmax : l.MaxEntries = N) (hwf : l.WF) (hlen : l.Len ≤ N) :
    ((l.runStores ops).1).Len ≤ N := by
  induction ops generalizing l with
  | nil => exact hlen
  | cons op rest ih =>
    match op with
    | (k, v, t) =>
      unfold LRU.runStores
      dsimp only
      have hwfS := LRU.wf_Store k v t hwf
      have hmaxS : ((l.Store k v t).1).MaxEntries = N := by
        rw [(LRU.Store_fields l k v t).1, hmax]
      have hlenS : ((l.Store k v t).1).Len ≤ N := by
        have hb := LRU.Store_Len_le k v t hwf
          (by rw [hmax]; omega) (by rw [hmax]; exact hlen)
        rw [hmax] at hb
        exact hb
      exact ih _ hmaxS hwfS hlenS

/-- Witness for C3 with capacity 2 and three stores. -/
theorem C3_witness :
    (((LRU.New 2).runStores [("a", 1, 0), ("b", 2, 0), ("c", 3, 0)]).1).Len ≤ 2 :=
  C3_capacity_invariant 2 (LRU.New 2) [("a", 1, 0), ("b", 2, 0), ("c", 3, 0)]
    (by decide) (by decide) (by decide) (by decide)

/-- C1 counterexample: with TTL 5, a key stored at time 0 and loaded at the
boundary instant 5 (= t0 + d) is NOT treated as expired — `Load` returns the
stored value with found = true and no error — and even strictly after the
boundary the `found` flag is still `true` (with the expired error), never the
`false` the claim requires for all times ≥ t0 + d. -/
theorem C1_counterexample :
    ((((({ LRU.New 0 with OnEvicted := true, TTL := 5 } : LRU).Store "k" 7 0).1).Load
        "k" 5).1 = some 7) ∧
    ((((({ LRU.New 0 with OnEvicted := true, TTL := 5 } : LRU).Store "k" 7 0).1).Load
        "k" 5).2.1 = true) ∧
    ((((({ LRU.New 0 with OnEvicted := true, TTL := 5 } : LRU).Store "k" 7 0).1).Load
        "k" 5).2.2.1 = none) ∧
    ((((({ LRU.New 0 with OnEvicted := true, TTL := 5 } : LRU).Store "k" 7 0).1).Load
        "k" 6).2.1 = true) := by
  decide

/-- C1 (amended): storing `k` with a positive TTL `d` at `t0` in an uncapped
cache with a configured callback: a `Load` at any time strictly after `t0 + d`
returns a nil value with `found = true` and the distinguished expired error,
removes the entry as a side effect, and fires the callback exactly once with
`k` and the stored value; at the boundary instant `t0 + d` itself the entry is
not yet expired and `Load` returns the stored value. -/
theorem C1_ttl_expiry (l : LRU) (k : String) (v : Val) (t0 t : Nat)
    (hwf : l.WF) (hmax : l.MaxEntries = 0) (httl : 0 < l.TTL)
    (hcb : l.OnEvicted = true) (ht : t0 + l.TTL < t) :
    ((((l.Store k v t0).1).Load k (t0 + l.TTL)).1 = some v) ∧
    ((((l.Store k v t0).1).Load k (t0 + l.TTL)).2.1 = true) ∧
    ((((l.Store k v t0).1).Load k (t0 + l.TTL)).2.2.1 = none) ∧
    ((((l.Store k v t0).1).Load k t).1 = none) ∧
    ((((l.Store k v t0).1).Load k t).2.1 = true) ∧
    ((((l.Store k v t0).1).Load k t).2.2.1 = some CacheErr.cachedExp) ∧
    ((((l.Store k v t0).1).Load k t).2.2.2.2 = [(k, v)]) ∧
    (mapLookup ((((l.Store k v t0).1).Load k t).2.2.2.1).c.cache k = none) ∧
    ((((l.Store k v t0).1).Load k t).2.2.2.1).Len + 1 = ((l.Store k v t0).1).Len := by
  obtain ⟨id, hl1, hl2, hl3, hl4, hl5⟩ := LRU.Store_unbounded_lookup k v t0 hwf hmax httl
  have hexp : (heapGet ((l.Store k v t0).1).c.heap id).exp = t0 + l.TTL := by rw [hl2]
  have hlive : ¬(0 < ((l.Store k v t0).1).c.ttl ∧
      t0 + l.TTL > (heapGet ((l.Store k v t0).1).c.heap id).exp) := by
    intro hc
    rw [hexp] at hc
    exact absurd hc.2 (lt_irrefl _)
  have httl2 : 0 < ((l.Store k v t0).1).c.ttl := by
    rw [hl3]
    exact httl
  have hte : t > (heapGet ((l.Store k v t0).1).c.heap id).exp := by
    rw [hexp]
    omega
  obtain ⟨e1, e2, e3, e4, e5, e6⟩ := LRU.Load_expired_spec hl5 hl1 httl2 hte
  have hev : (((l.Store k v t0).1).Load k t).2.2.2.2 = [(k, v)] := by
    rw [e4, hl4, hcb, hl2]
    simp
  refine ⟨?_, ?_, ?_, e1, e2, e3, hev, e5, e6⟩
  · rw [LRU.Load_eq_live hl1 hlive]
    dsimp only
    rw [hl2]
  · rw [LRU.Load_eq_live hl1 hlive]
  · rw [LRU.Load_eq_live hl1 hlive]

/-- Witness for C1 (amended) at TTL 5, store at 0, expired load at 6. -/
theorem C1_witness :
    ((((({ LRU.New 0 with OnEvicted := true, TTL := 5 } : LRU).Store "k" 7 0).1).Load
        "k" (0 + 5)).1 = some 7) ∧
    ((((({ LRU.New 0 with OnEvicted := true, TTL := 5 } : LRU).Store "k" 7 0).1).Load
        "k" (0 + 5)).2.1 = true) ∧
    ((((({ LRU.New 0 with OnEvicted := true, TTL := 5 } : LRU).Store "k" 7 0).1).Load
        "k" (0 + 5)).2.2.1 = none) ∧
    ((((({ LRU.New 0 with OnEvicted := true, TTL := 5 } : LRU).Store "k" 7 0).1).Load
        "k" 6).1 = none) ∧
    ((((({ LRU.New 0 with OnEvicted := true, TTL := 5 } : LRU).Store "k" 7 0).1).Load
        "k" 6).2.1 = true) ∧
    ((((({ LRU.New 0 with OnEvicted := true, TTL := 5 } : LRU).Store "k" 7 0).1).Load
        "k" 6).2.2.1 = some CacheErr.cachedExp) ∧
    ((((({ LRU.New 0 with OnEvicted := true, TTL := 5 } : LRU).Store "k" 7 0).1).Load
        "k" 6).2.2.2.2 = [("k", 7)]) ∧
    (mapLookup ((((({ LRU.New 0 with OnEvicted := true, TTL := 5 } : LRU).Store
        "k" 7 0).1).Load "k" 6).2.2.2.1).c.cache "k" = none) ∧
    ((((({ LRU.New 0 with OnEvicted := true, TTL := 5 } : LRU).Store "k" 7 0).1).Load
        "k" 6).2.2.2.1).Len + 1
      = ((({ LRU.New 0 with OnEvicted := true, TTL := 5 } : LRU).Store "k" 7 0).1).Len :=
  C1_ttl_expiry { LRU.New 0 with OnEvicted := true, TTL := 5 } "k" 7 0 6
    (by decide) (by decide) (by decide) (by decide) (by decide)

/-- C2 (code bug): `Clear` does not remove entries. In the lru.go wrapper it
only fires the callback for each mapped entry (never unlinking or unbinding
them), and in the `cache` engine variant `clear` is a complete no-op when no
callback is configured; either way `Len` stays 1 after storing one key and
clearing, where the claim (and TestLRULen) require 0. -/
theorem C2_clear_does_not_remove :
    (((((LRU.New 1).Store "k" 9 0).1).Clear).1.Len = 1) ∧
    ((({ (((LRU.New 1).Store "k" 9 0).1) with OnEvicted := true } : LRU).Clear).1.Len
       = 1) ∧
    ((({ (((LRU.New 1).Store "k" 9 0).1) with OnEvicted := true } : LRU).Clear).2
       = [("k", 9)]) ∧
    (((newCache.store "k" 9 0).1).clear = ((newCache.store "k" 9 0).1, [])) ∧
    ((((newCache.store "k" 9 0).1).clear).1.len = 1) := by
  decide

/-- C5: a successful `Load` of a present, unexpired key promotes the entry to
most-recently-used (it becomes the head of the recency order) and returns its
value with found = true and no error; concretely, with capacity 2, after
Store "a", Store "b", Load "a", Store "c", the evicted entry is ("b", 2) and
"a" remains live while "b" does not. -/
theorem C5_load_promotes (l : LRU) (k : String) (now id : Nat) (hwf : l.WF)
    (hid : mapLookup l.c.cache k = some id)
    (hlive : ¬(0 < l.c.ttl ∧ now > (heapGet l.c.heap id).exp)) :
    (((l.Load k now).2.2.2.1).c.ll.head? = some id) ∧
    ((l.Load k now).1 = some (heapGet l.c.heap id).value) ∧
    ((l.Load k now).2.1 = true) ∧ ((l.Load k now).2.2.1 = none) ∧
    ((((((({ LRU.New 2 with OnEvicted := true } : LRU).Store "a" 1 0).1.Store
          "b" 2 0).1.Load "a" 0).2.2.2.1).Store "c" 3 0).2 = [("b", 2)] ∧
     mapLookup ((((((({ LRU.New 2 with OnEvicted := true } : LRU).Store "a" 1 0).1.Store
          "b" 2 0).1.Load "a" 0).2.2.2.1).Store "c" 3 0).1).c.cache "a" = some 0 ∧
     mapLookup ((((((({ LRU.New 2 with OnEvicted := true } : LRU).Store "a" 1 0).1.Store
          "b" 2 0).1.Load "a" 0).2.2.2.1).Store "c" 3 0).1).c.cache "b" = none) := by
  have hll : id ∈ l.c.ll := (Core.WF.cache_ll hwf _ (mapLookup_mem hid)).1
  refine ⟨?_, ?_, ?_, ?_, by decide⟩
  · rw [LRU.Load_eq_live hid hlive]
    dsimp only
    exact head_llMoveToFront hll
  · rw [LRU.Load_eq_live hid hlive]
  · rw [LRU.Load_eq_live hid hlive]
  · rw [LRU.Load_eq_live hid hlive]

/-- Witness for C5 at a concrete one-entry cache. -/
theorem C5_witness :
    (((((LRU.New 2).Store "a" 5 0).1).Load "a" 0).2.2.2.1).c.ll.head? = some 0 ∧
    (((((LRU.New 2).Store "a" 5 0).1).Load "a" 0).1
      = some (heapGet (((LRU.New 2).Store "a" 5 0).1).c.heap 0).value) ∧
    (((((LRU.New 2).Store "a" 5 0).1).Load "a" 0).2.1 = true) ∧
    (((((LRU.New 2).Store "a" 5 0).1).Load "a" 0).2.2.1 = none) ∧
    ((((((({ LRU.New 2 with OnEvicted := true } : LRU).Store "a" 1 0).1.Store
          "b" 2 0).1.Load "a" 0).2.2.2.1).Store "c" 3 0).2 = [("b", 2)] ∧
     mapLookup ((((((({ LRU.New 2 with OnEvicted := true } : LRU).Store "a" 1 0).1.Store
          "b" 2 0).1.Load "a" 0).2.2.2.1).Store "c" 3 0).1).c.cache "a" = some 0 ∧
     mapLookup ((((((({ LRU.New 2 with OnEvicted := true } : LRU).Store "a" 1 0).1.Store
          "b" 2 0).1.Load "a" 0).2.2.2.1).Store "c" 3 0).1).c.cache "b" = none) :=
  C5_load_promotes (((LRU.New 2).Store "a" 5 0).1) "a" 0 0 (by decide) (by decide)
    (by decide)

/-- C8: deleting an absent key is a no-op (state and callback output are
untouched) no matter how often it is repeated; deleting a present key removes
exactly that entry (its key is unbound, every other key is untouched, the
live count drops by exactly 1) and fires the callback exactly once with the
deleted key and its value, when a callback is configured. -/
theorem C8_delete (l : LRU) (k : String) (hwf : l.WF) :
    (mapLookup l.c.cache k = none →
      l.Delete k = (l, []) ∧ ((l.Delete k).1).Delete k = (l, [])) ∧
    (∀ id, mapLookup l.c.cache k = some id →
      ((l.Delete k).1).Len + 1 = l.Len ∧
      mapLookup ((l.Delete k).1).c.cache k = none ∧
      (∀ k2, k2 ≠ k →
        mapLookup ((l.Delete k).1).c.cache k2 = mapLookup l.c.cache k2) ∧
      (l.Delete k).2 =
        (if l.c.onEvicted then [(k, (heapGet l.c.heap id).value)] else [])) := by
  constructor
  · intro hnone
    have h1 : l.Delete k = (l, []) := by
      unfold LRU.Delete
      rw [Core.delete_eq_neg hnone]
    refine ⟨h1, ?_⟩
    rw [h1]
    exact h1
  · intro id hid
    have hkey : (heapGet l.c.heap id).key = k :=
      (Core.WF.cache_ll hwf _ (mapLookup_mem hid)).2
    have hll : id ∈ l.c.ll := (Core.WF.cache_ll hwf _ (mapLookup_mem hid)).1
    have hdel : l.Delete k =
        ({ l with c := (l.c.removeElement id).1 }, (l.c.removeElement id).2) := by
      unfold LRU.Delete
      rw [Core.delete_eq_pos hid]
    refine ⟨?_, ?_, ?_, ?_⟩
    · rw [hdel]
      exact Core.removeElement_len (Core.WF.ll_nodup hwf) hll
    · rw [hdel]
      dsimp only
      rw [Core.removeElement_fst]
      dsimp only
      rw [hkey]
      exact mapLookup_mapErase_self _ _
    · intro k2 hk2
      rw [hdel]
      dsimp only
      rw [Core.removeElement_fst]
      dsimp only
      rw [hkey]
      exact mapLookup_mapErase_ne hk2
    · rw [hdel]
      dsimp only
      rw [Core.removeElement_snd, hkey]

/-- Witness for C8 at a concrete two-entry cache with a configured callback. -/
theorem C8_witness :
    (mapLookup ((({ LRU.New 2 with OnEvicted := true } : LRU).Store "a" 1 0).1).c.cache
        "z" = none →
      ((({ LRU.New 2 with OnEvicted := true } : LRU).Store "a" 1 0).1).Delete "z"
          = (((({ LRU.New 2 with OnEvicted := true } : LRU).Store "a" 1 0).1), []) ∧
      (((((({ LRU.New 2 with OnEvicted := true } : LRU).Store "a" 1 0).1)).Delete
          "z").1).Delete "z"
          = (((({ LRU.New 2 with OnEvicted := true } : LRU).Store "a" 1 0).1), [])) ∧
    (∀ id, mapLookup ((({ LRU.New 2 with OnEvicted := true } : LRU).Store
        "a" 1 0).1).c.cache "a" = some id →
      (((((({ LRU.New 2 with OnEvicted := true } : LRU).Store "a" 1 0).1)).Delete
          "a").1).Len + 1
        = ((({ LRU.New 2 with OnEvicted := true } : LRU).Store "a" 1 0).1).Len ∧
      mapLookup (((((({ LRU.New 2 with OnEvicted := true } : LRU).Store
          "a" 1 0).1)).Delete "a").1).c.cache "a" = none ∧
      (∀ k2, k2 ≠ "a" →
        mapLookup (((((({ LRU.New 2 with OnEvicted := true } : LRU).Store
            "a" 1 0).1)).Delete "a").1).c.cache k2
          = mapLookup ((({ LRU.New 2 with OnEvicted := true } : LRU).Store
            "a" 1 0).1).c.cache k2) ∧
      ((((({ LRU.New 2 with OnEvicted := true } : LRU).Store "a" 1 0).1)).Delete
          "a").2 =
        (if ((({ LRU.New 2 with OnEvicted := true } : LRU).Store "a" 1 0).1).c.onEvicted
         then [("a", (heapGet ((({ LRU.New 2 with OnEvicted := true } : LRU).Store
             "a" 1 0).1).c.heap id).value)]
         else [])) :=
  ⟨(C8_delete (((({ LRU.New 2 with OnEvicted := true } : LRU)).Store "a" 1 0).1) "z"
      (by decide)).1,
   (C8_delete (((({ LRU.New 2 with OnEvicted := true } : LRU)).Store "a" 1 0).1) "a"
      (by decide)).2⟩

/-- C7: `update` on a present key replaces the stored value in place — the
record keeps its expiry and timer (the whole record changes only in `value`),
the order, index and live count are untouched — and a subsequent unexpired
`load` of the key succeeds and observes the new value; `update` on an absent
key is a complete no-op (the state is unchanged, so no entry is created, the
length is unchanged, and — the operation having no eviction path at all — no
callback fires). -/
theorem C7_update (c : CacheS) (k : String) (v : Val) (hwf : c.WF) :
    (mapLookup c.items k = none → c.update k v = c) ∧
    (∀ id, mapLookup c.items k = some id →
      (c.update k v).list = c.list ∧
      (c.update k v).items = c.items ∧
      (c.update k v).len = c.len ∧
      heapGet (c.update k v).heap id = { heapGet c.heap id with value := v } ∧
      (∀ now, ¬(0 < c.ttl ∧ now > (heapGet c.heap id).exp) →
        ((c.update k v).load k now).1 = some id ∧
        ((c.update k v).load k now).2.1 = true ∧
        ((c.update k v).load k now).2.2.1 = none ∧
        ((c.update k v).load k now).2.2.2.2 = [] ∧
        heapGet (((c.update k v).load k now).2.2.2.1).heap id =
          { heapGet c.heap id with value := v })) := by
  obtain ⟨w1, w2, w3, w4, w5, w6, w7⟩ := hwf
  constructor
  · intro h
    exact CacheS.update_eq_none v h
  · intro id hid
    have hmem_list : id ∈ c.list := (w5 _ (mapLookup_mem hid)).1
    have hmem : id ∈ c.heap.map Prod.fst := w4 _ hmem_list
    have hup := CacheS.update_eq_some v hid
    have hget : heapGet (c.update k v).heap id = { heapGet c.heap id with value := v } := by
      rw [hup]
      dsimp only
      exact heapGet_heapSet_self _ hmem
    refine ⟨by rw [hup], by rw [hup], ?_, hget, ?_⟩
    · rw [hup]
      exact rfl
    · intro now hl
      have hid2 : mapLookup (c.update k v).items k = some id := by
        rw [hup]
        exact hid
      have hexp2 : (heapGet (c.update k v).heap id).exp = (heapGet c.heap id).exp := by
        rw [hget]
      have httl2 : (c.update k v).ttl = c.ttl := by
        rw [hup]
      have hl2 : ¬(0 < (c.update k v).ttl ∧
          now > (heapGet (c.update k v).heap id).exp) := by
        rw [httl2, hexp2]
        exact hl
      rw [CacheS.load_live_eq hid2 hl2]
      exact ⟨rfl, rfl, rfl, rfl, hget⟩

/-- Witness for C7 at a concrete two-entry cache. -/
theorem C7_witness :
    (mapLookup ((newCache.store "x" 1 0).1).items "zz" = none →
      ((newCache.store "x" 1 0).1).update "zz" 42 = (newCache.store "x" 1 0).1) ∧
    (∀ id, mapLookup ((newCache.store "x" 1 0).1).items "x" = some id →
      (((newCache.store "x" 1 0).1).update "x" 42).list
        = ((newCache.store "x" 1 0).1).list ∧
      (((newCache.store "x" 1 0).1).update "x" 42).items
        = ((newCache.store "x" 1 0).1).items ∧
      (((newCache.store "x" 1 0).1).update "x" 42).len
        = ((newCache.store "x" 1 0).1).len ∧
      heapGet (((newCache.store "x" 1 0).1).update "x" 42).heap id
        = { heapGet ((newCache.store "x" 1 0).1).heap id with value := 42 } ∧
      (∀ now, ¬(0 < ((newCache.store "x" 1 0).1).ttl ∧
          now > (heapGet ((newCache.store "x" 1 0).1).heap id).exp) →
        ((((newCache.store "x" 1 0).1).update "x" 42).load "x" now).1 = some id ∧
        ((((newCache.store "x" 1 0).1).update "x" 42).load "x" now).2.1 = true ∧
        ((((newCache.store "x" 1 0).1).update "x" 42).load "x" now).2.2.1 = none ∧
        ((((newCache.store "x" 1 0).1).update "x" 42).load "x" now).2.2.2.2 = [] ∧
        heapGet (((((newCache.store "x" 1 0).1).update "x" 42).load
            "x" now).2.2.2.1).heap id
          = { heapGet ((newCache.store "x" 1 0).1).heap id with value := 42 })) :=
  ⟨(C7_update ((newCache.store "x" 1 0).1) "zz" 42 (by decide)).1,
   (C7_update ((newCache.store "x" 1 0).1) "x" 42 (by decide)).2⟩

/-- C10: overwriting an already-present key fires no eviction callback and
leaves the live count unchanged, in both engine variants: the wrapped `core`
variant (which updates the record in place; `Store` performs no eviction and
returns an empty callback trace) and the `cache` variant (whose `store`
removes the old node through the callback-free `removeElement` before pushing
a fresh node, leaving `len` unchanged; its `store` has no eviction path, so
no callback can fire). -/
theorem C10_overwrite (l : LRU) (k : String) (v : Val) (now id : Nat) (hwf : l.WF)
    (hid : mapLookup l.c.cache k = some id)
    (hcap : l.MaxEntries = 0 ∨ l.Len ≤ l.MaxEntries) :
    ((l.Store k v now).2 = [] ∧ ((l.Store k v now).1).Len = l.Len) ∧
    (∀ (c2 : CacheS) (id2 : Nat), c2.WF → mapLookup c2.items k = some id2 →
      ((c2.store k v now).1).len = c2.len) := by
  constructor
  · have hid2 : mapLookup (l.set).c.cache k = some id := hid
    have hwf1 : (l.set).c.WF := hwf
    have hwf2 := Core.wf_store k v now hwf1
    have hll_eq : (((l.set).c.store k v now).1).ll = l.c.ll := by
      rw [Core.store_eq_pos hid2]
      exact rfl
    have hlen_eq : (llMoveToFront (((l.set).c.store k v now).1).ll
        (((l.set).c.store k v now).2)).length = l.c.ll.length := by
      rw [length_llMoveToFront (Core.WF.ll_nodup hwf2), hll_eq]
    unfold LRU.Store
    dsimp only
    split
    · next hcond =>
      exfalso
      have hcond2 : l.MaxEntries ≠ 0 ∧
          (llMoveToFront (((l.set).c.store k v now).1).ll
            (((l.set).c.store k v now).2)).length > l.MaxEntries := hcond
      rcases hcap with hcap | hcap
      · exact hcond2.1 hcap
      · have h3 := hcond2.2
        rw [hlen_eq] at h3
        unfold LRU.Len at hcap
        omega
    · next =>
      refine ⟨rfl, ?_⟩
      exact hlen_eq
  · intro c2 id2 hwf2 hid2
    obtain ⟨w1, w2, w3, w4, w5, w6, w7⟩ := hwf2
    have hmem : id2 ∈ c2.list := (w5 _ (mapLookup_mem hid2)).1
    rw [CacheS.store_pos_eq hid2]
    unfold CacheS.len
    dsimp only
    rw [CacheS.removeElement_eq]
    dsimp only
    rw [List.length_append]
    have hflt := length_filter_ne_of_nodup w3 hmem
    simp only [List.length_singleton]
    omega

/-- Witness for C10 at a concrete one-entry cache in each variant. -/
theorem C10_witness :
    (((((LRU.New 2).Store "a" 1 0).1).Store "a" 9 0).2 = [] ∧
     (((((LRU.New 2).Store "a" 1 0).1).Store "a" 9 0).1).Len
       = ((((LRU.New 2).Store "a" 1 0)).1).Len) ∧
    (∀ (c2 : CacheS) (id2 : Nat), c2.WF → mapLookup c2.items "a" = some id2 →
      ((c2.store "a" 9 0).1).len = c2.len) :=
  C10_overwrite (((LRU.New 2).Store "a" 1 0).1) "a" 9 0 0 (by decide) (by decide)
    (by decide)

/-- C4: storing `N + k` pairwise-distinct keys into an empty capacity-`N`
cache (callback configured, no intervening reads) evicts exactly the first
`k` stored pairs, in insertion order, the callback firing with each evicted
key and its stored value; exactly the last `N` stored pairs remain live, the
recency order listing them newest-first. -/
theorem C4_eviction_order (N k : Nat) (ops : List (String × Val × Nat))
    (hN : 0 < N) (hlen : ops.length = N + k)
    (hnd : (ops.map (fun o => o.1)).Nodup) :
    ((({ LRU.New N with OnEvicted := true } : LRU).runStores ops).2
       = (ops.map (fun o => (o.1, o.2.1))).take k) ∧
    ((({ LRU.New N with OnEvicted := true } : LRU).runStores ops).1.entries
       = ((ops.map (fun o => (o.1, o.2.1))).drop k).reverse) := by
  have hrep0 : ({ LRU.New N with OnEvicted := true } : LRU).Reps N [] := by
    refine ⟨LRU.New_WF N, rfl, rfl, rfl, ?_⟩
    simp
  have h := LRU.runStores_reps hN ops _ [] hrep0 hnd
    (by intro o ho p hp; simp at hp)
  have hIx : ([] : List (String × Val)).length + ops.length - N = k := by
    simp only [List.length_nil]
    omega
  rw [hIx, List.nil_append] at h
  obtain ⟨h1, h2⟩ := h
  exact ⟨h1, h2.2.2.2.1⟩

/-- Witness for C4: capacity 2, four distinct keys, the first two evicted. -/
theorem C4_witness :
    ((({ LRU.New 2 with OnEvicted := true } : LRU).runStores
        [("a", 1, 0), ("b", 2, 0), ("c", 3, 0), ("d", 4, 0)]).2
       = ([("a", 1, 0), ("b", 2, 0), ("c", 3, 0), ("d", 4, 0)].map
           (fun o => (o.1, o.2.1))).take 2) ∧
    ((({ LRU.New 2 with OnEvicted := true } : LRU).runStores
        [("a", 1, 0), ("b", 2, 0), ("c", 3, 0), ("d", 4, 0)]).1.entries
       = (([("a", 1, 0), ("b", 2, 0), ("c", 3, 0), ("d", 4, 0)].map
           (fun o => (o.1, o.2.1))).drop 2).reverse) :=
  C4_eviction_order 2 2 [("a", 1, 0), ("b", 2, 0), ("c", 3, 0), ("d", 4, 0)]
    (by decide) (by decide) (by decide)
